import Mathlib

set_option maxRecDepth 100000

/-!
Verification development for the ATS resume checker (src/app.py).

Python text is modelled as a list of Unicode code points (List ℕ).  Pure
string-processing functions of the source are translated one-to-one;
external collaborators (the wordnet lexical database, the fitz PDF
library, docx2txt, the byte stream of an uploaded file) are abstracted as
explicit function parameters, since their code is not part of this
repository.  Python float arithmetic inside calculate_ats is modelled
exactly, by a computable IEEE-754 binary64 round-to-nearest-even model
over dyadic rationals; the model is exact for the normal range, which
covers every count reachable from a text a machine can hold
(counts below 2 ^ 53, quotients far above the subnormal threshold).
-/

/-- Decimal code points of a string literal, used to write word constants
readably.  Python str objects are sequences of code points, modelled here
as List ℕ. -/
def str (s : String) : List ℕ := s.data.map Char.toNat

/-- Models Python str.lower on one code point, restricted to ASCII: the
uppercase letters A-Z (65-90) map to a-z (97-122), everything else is
unchanged.  The handful of non-ASCII code points that Python lowercases
into ASCII (such as the Kelvin sign) are outside the model. -/
def pyLower (c : ℕ) : ℕ := if 65 ≤ c ∧ c ≤ 90 then c + 32 else c

/-- Code point is a lowercase ASCII letter or an ASCII digit: the
character class a-z0-9 of the regular expression in clean_text. -/
def isLowerAlnum (c : ℕ) : Bool := (97 ≤ c && c ≤ 122) || (48 ≤ c && c ≤ 57)

/-- ASCII whitespace matched by the regex class backslash-s: space, tab,
newline, carriage return, vertical tab, form feed.  Non-ASCII Unicode
whitespace also matched by Python is outside the model; it would act as a
token separator exactly like the space it is replaced with. -/
def pyIsSpace (c : ℕ) : Bool := c == 32 || c == 9 || c == 10 || c == 13 || c == 11 || c == 12

/-- ASCII word character of the regex class backslash-w: letters, digits,
underscore.  Only lowercase letters and digits can survive clean_text, so
the non-ASCII word characters of Python are unreachable here. -/
def isWordChar (c : ℕ) : Bool :=
  isLowerAlnum c || (65 ≤ c && c ≤ 90) || c == 95

/-- Source clean_text (src/app.py lines 41-44): lowercase the text, then
replace every character outside a-z, 0-9 and whitespace by a space
(code point 32). -/
def clean_text (t : List ℕ) : List ℕ :=
  (t.map pyLower).map (fun c => if isLowerAlnum c || pyIsSpace c then c else 32)

/-- Tokenizer accumulator loop: splits a list of code points into the
maximal runs of word characters, the accumulator holding the current run
reversed. -/
def tokenizeAux : List ℕ → List ℕ → List (List ℕ)
  | [], acc => if acc = [] then [] else [acc.reverse]
  | c :: cs, acc =>
      if isWordChar c then tokenizeAux cs (c :: acc)
      else if acc = [] then tokenizeAux cs [] else acc.reverse :: tokenizeAux cs []

/-- Models re.findall of word-boundary tokens (the pattern backslash-b
backslash-w+ backslash-b) on a text: the list of maximal runs of word
characters, in order. -/
def tokenize (t : List ℕ) : List (List ℕ) := tokenizeAux t []

/-- Fixed stopword list of extract_keywords (src/app.py line 47). -/
def stopwords : List (List ℕ) :=
  [str "and", str "or", str "the", str "a", str "an", str "in", str "on",
   str "with", str "for", str "to", str "of", str "is", str "are"]

/-- Source extract_keywords (src/app.py lines 46-49): tokenize the cleaned
text on word boundaries, drop stopwords, return the deduplicated set. -/
def extract_keywords (t : List ℕ) : Finset (List ℕ) :=
  ((tokenize (clean_text t)).filter (fun w => w ∉ stopwords)).toFinset

/-!
IEEE-754 binary64 model.  Python computes
int((len(matches) / len(jd_kw)) * 100) in double precision: the two
counts convert to doubles exactly (they are far below 2 ^ 53), the true
division is rounded to the nearest double (ties to even), the product
with 100 is rounded again, and int truncates toward zero.  The model
below computes these two roundings exactly over naturals: a double value
is held as a dyadic pair (mantissa, exponent) with value
mantissa * 2 ^ exponent.
-/

/-- Fueled floor of the base-2 logarithm, structurally recursive so that
the kernel can evaluate it. -/
def log2fuel : ℕ → ℕ → ℕ
  | 0, _ => 0
  | fuel + 1, n => if 2 ≤ n then log2fuel fuel (n / 2) + 1 else 0

/-- Floor of the base-2 logarithm of a natural (0 for inputs 0 and 1). -/
def natLog2 (n : ℕ) : ℕ := log2fuel n n

/-- Fueled ceiling of the base-2 logarithm of the fraction n / m: the
least c with n at or below m * 2 ^ c, found by doubling m. -/
def clog2fracFuel : ℕ → ℕ → ℕ → ℕ
  | 0, _, _ => 0
  | fuel + 1, m, n => if n ≤ m then 0 else clog2fracFuel fuel (2 * m) n + 1

/-- Ceiling of the base-2 logarithm of n / m (fuel n suffices, because m
at least doubles its distance covered at every step). -/
def fracClog2 (m n : ℕ) : ℕ := clog2fracFuel n m n

/-- Round-half-even of the fraction p / q to a natural: the rounding used
at the mantissa of an IEEE-754 result.  Total; q = 0 never occurs at the
call sites that matter. -/
def rheNat (p q : ℕ) : ℕ :=
  if 2 * (p % q) < q then p / q
  else if q < 2 * (p % q) then p / q + 1
  else if p / q % 2 = 0 then p / q else p / q + 1

/-- Binary exponent of the positive fraction m / n: the unique k with
2 ^ k below or at m / n, which is below 2 ^ (k + 1).  Both directions are
proved below (fracLog2_le and fracLog2_lt). -/
def fracLog2 (m n : ℕ) : ℤ :=
  if n ≤ m then (natLog2 (m / n) : ℤ) else -(fracClog2 m n : ℤ)

/-- Round the true quotient m / n to the nearest binary64 (ties to even),
returned as a dyadic pair: the 53-bit mantissa and its exponent. -/
def rnFrac (m n : ℕ) : ℕ × ℤ :=
  let e : ℤ := fracLog2 m n - 52
  if 0 ≤ e then (rheNat m (n * 2 ^ e.toNat), e)
  else (rheNat (m * 2 ^ (-e).toNat) n, e)

/-- Round the dyadic value d * 2 ^ e (d a natural, here the exact product
mantissa * 100) back to 53 significant bits, ties to even. -/
def rnScale (d : ℕ) (e : ℤ) : ℕ × ℤ :=
  let s : ℤ := (natLog2 d : ℤ) - 52
  if 0 ≤ s then (rheNat d (2 ^ s.toNat), e + s) else (d * 2 ^ (-s).toNat, e + s)

/-- Truncation toward zero of the nonnegative dyadic value d * 2 ^ e,
modelling the int conversion of Python. -/
def dyadicFloor (d : ℕ) (e : ℤ) : ℕ :=
  if 0 ≤ e then d * 2 ^ e.toNat else d / 2 ^ (-e).toNat

/-- Exact value of int((m / n) * 100) as computed by Python in binary64
arithmetic: round the quotient, multiply the mantissa by 100 exactly,
round again, truncate. -/
def pyAts (m n : ℕ) : ℕ :=
  let d1 := rnFrac m n
  let d2 := rnScale (d1.1 * 100) d1.2
  dyadicFloor d2.1 d2.2

/-!
Score engine (src/app.py lines 61-80).  The wordnet synonym oracle is an
external lexical database, abstracted as a function parameter syn; the
memoization wrapper around it (get_synonyms) is modelled separately below
and shown value-transparent, so calculate_ats may consult the oracle
directly.
-/

/-- Fixed priority term set of calculate_ats (src/app.py line 77). -/
def priority : Finset (List ℕ) :=
  [str "python", str "java", str "sql", str "aws", str "react", str "node",
   str "mongodb", str "docker"].toFinset

/-- Source calculate_ats (src/app.py lines 61-80).  Returns the tuple
(ats, weighted, matches, missing).  The loop over jd keywords classifies
each word as matched (directly present in the resume keyword set, or
sharing a synonym with it) or missing; iteration order is irrelevant
because only sets are built.  The source set named matches is called
matched here, matches being a reserved word of Lean.  The score line
int((len(matches) / len(jd_kw)) * 100) if jd_kw else 0
is modelled by pyAts under the nonemptiness guard. -/
def calculate_ats (syn : List ℕ → Finset (List ℕ)) (resume_text jd_text : List ℕ) :
    ℕ × ℕ × Finset (List ℕ) × Finset (List ℕ) :=
  let resume_kw := extract_keywords resume_text
  let jd_kw := extract_keywords jd_text
  let matched := jd_kw.filter (fun w => w ∈ resume_kw ∨ (syn w ∩ resume_kw).Nonempty)
  let missing := jd_kw.filter (fun w => ¬(w ∈ resume_kw ∨ (syn w ∩ resume_kw).Nonempty))
  let ats := if jd_kw = ∅ then 0 else pyAts matched.card jd_kw.card
  let weighted := min (ats + (matched ∩ priority).card * 2) 100
  (ats, weighted, matched, missing)

/-!
Text extractor (src/app.py lines 24-38) and its stream-position effect.
The fitz and docx2txt backends are abstract parameters.  The function has
two observable dimensions, modelled by two views of the same source
lines: the returned text with possible backend exceptions
(get_text_from_file), and the file stream position threaded through the
seek and read calls on the successful paths (get_text_from_file_track).
-/

/-- Exception taxonomy of the specification. -/
inductive PyError : Type
  | unsupportedFormat
  | malformedDocument
  | highlightLookup
  deriving DecidableEq

/-- Uploaded file: a name and raw byte content (bytes as naturals). -/
structure PyFile : Type where
  name : List ℕ
  content : List ℕ

/-- Splitter for Python name.split with separator dot (code point 46);
Python split always returns at least one piece, so the result is
nonempty by construction. -/
def splitDotAux : List ℕ → List ℕ → List (List ℕ)
  | [], acc => [acc.reverse]
  | c :: cs, acc =>
      if c = 46 then acc.reverse :: splitDotAux cs [] else splitDotAux cs (c :: acc)

/-- Models file.name.split with dot [-1] .lower() of src/app.py line 28:
the lowercased text after the last dot (the whole lowercased name when no
dot occurs). -/
def fileExt (name : List ℕ) : List ℕ :=
  ((splitDotAux name []).getLastD []).map pyLower

/-- Source get_text_from_file (src/app.py lines 24-38), extraction view.
A missing file returns the empty text.  The pdf branch hands the bytes to
the fitz backend (which concatenates the page texts and may raise on a
malformed document), the docx branch to docx2txt.  Any other extension
falls through both branches and returns the initial empty text: no
exception is raised for an unsupported extension. -/
def get_text_from_file (pdfT docxT : List ℕ → Except PyError (List ℕ))
    (file : Option PyFile) : Except PyError (List ℕ) :=
  match file with
  | none => .ok []
  | some f =>
      let ft := fileExt f.name
      if ft = str "pdf" then pdfT f.content
      else if ft = str "docx" then docxT f.content
      else .ok []

/-- Source get_text_from_file, stream-position view of the successful
paths.  The caller passes the current stream position; the body first
executes file.seek(0), the pdf branch then consumes the stream with
file.read() (position moves to the end), the docx branch lets docx2txt
consume an arbitrary amount (docxRun returns the text and the position it
leaves), and line 37 executes file.seek(0) before every return.  The
returned pair is the text and the final stream position. -/
def get_text_from_file_track (pdfParse : List ℕ → List ℕ)
    (docxRun : List ℕ → ℕ → List ℕ × ℕ) (file : Option PyFile) (pos : ℕ) :
    List ℕ × ℕ :=
  match file with
  | none => ([], pos)
  | some f =>
      let ft := fileExt f.name
      let pos0 : ℕ := 0
      if ft = str "pdf" then
        let bytes := f.content.drop pos0
        let _posAfterRead := f.content.length
        (pdfParse bytes, 0)
      else if ft = str "docx" then
        let tp := docxRun f.content pos0
        (tp.1, 0)
      else ([], 0)

/-!
Synonym resolver (src/app.py lines 51-58).  The source wraps the wordnet
lookup in functools.lru_cache with maxsize 500: a bounded, least-recently
-used cache.  The cache is modelled as an association list ordered from
most recently used to least recently used; a hit moves the key to the
front without consulting the underlying function, a miss consults it,
inserts at the front and truncates to the capacity, evicting the least
recently used entry when the cache was full.
-/

/-- One functools.lru_cache access: the cached or freshly computed value,
together with the updated cache. -/
def lruLookup {K V : Type} [DecidableEq K] (f : K → V) (cap : ℕ)
    (cache : List (K × V)) (k : K) : V × List (K × V) :=
  match cache.find? (fun p => p.1 = k) with
  | some p => (p.2, (k, p.2) :: cache.filter (fun q => ¬q.1 = k))
  | none => let v := f k; (v, ((k, v) :: cache).take cap)

/-- Source get_synonyms (src/app.py lines 52-58): the wordnet lookup
(abstract oracle wn, mapping a word to its set of lowercased,
space-joined lemma names across all synsets) behind an lru_cache of
maxsize 500. -/
def get_synonyms (wn : List ℕ → Finset (List ℕ))
    (cache : List (List ℕ × Finset (List ℕ))) (word : List ℕ) :
    Finset (List ℕ) × List (List ℕ × Finset (List ℕ)) :=
  lruLookup wn 500 cache word

/-!
PDF highlighter (src/app.py lines 83-104).  The fitz page operations are
abstract oracles: searchFor models page.search_for (the exact-substring
pass, a list of rectangles, or a raised lookup failure), getWords models
page.get_text with argument words (the word-level tokens with their
rectangles, or a raised failure).  Rectangles are abstract (a type
parameter).  Each keyword step runs inside try/except: effects applied
before a raise are kept, the exception itself is swallowed and the loop
continues, which the model expresses by returning the partial rectangle
list together with the swallowed exception, the caller keeping only the
list.  The final pdf.write is an abstract serializer over the per-page
annotation lists.
-/

/-- Body of the try block for one keyword on one page: the exact-search
pass appends every rectangle found, then the word-scan pass appends the
rectangle of every word token whose lowercase form equals the lowercase
keyword.  Returns the rectangles accumulated so far paired with the
exception that interrupted the body, if any. -/
def kwStep {Page Rect : Type} (searchFor : Page → List ℕ → Except PyError (List Rect))
    (getWords : Page → Except PyError (List (Rect × List ℕ)))
    (p : Page) (kw : List ℕ) (acc : List Rect) : List Rect × Option PyError :=
  match searchFor p kw with
  | .error e => (acc, some e)
  | .ok found =>
      let acc1 := acc ++ found
      match getWords p with
      | .error e => (acc1, some e)
      | .ok ws =>
          (acc1 ++ (ws.filter (fun w => w.2.map pyLower = kw.map pyLower)).map
            (fun w => w.1), none)

/-- Source highlight_pdf_keywords (src/app.py lines 83-104): for every
page, for every keyword, run the try block and swallow any exception
(keeping the annotations already added), then serialize the document with
its accumulated per-page highlight annotations.  Total: no exception
escapes. -/
def highlight_pdf_keywords {Page Rect : Type}
    (serialize : List (Page × List Rect) → List ℕ)
    (searchFor : Page → List ℕ → Except PyError (List Rect))
    (getWords : Page → Except PyError (List (Rect × List ℕ)))
    (pages : List Page) (keywords : List (List ℕ)) : List ℕ :=
  serialize (pages.map (fun p =>
    (p, keywords.foldl (fun acc kw => (kwStep searchFor getWords p kw acc).1) [])))

/-- Rational value 2 ^ e for an integer exponent, used only in proofs
(the executable definitions work with mantissa-exponent pairs). -/
def pow2z (e : ℤ) : ℚ :=
  if 0 ≤ e then (2 : ℚ) ^ e.toNat else 1 / (2 : ℚ) ^ (-e).toNat

/-- Rational value of a dyadic mantissa-exponent pair. -/
def dyVal (d : ℕ) (e : ℤ) : ℚ := (d : ℚ) * pow2z e

/-!
Named components of calculate_ats, convenient for stating the claims; each
is definitionally the corresponding piece of the tuple built by
calculate_ats, as the rfl-lemmas below record.
-/

/-- Matched keyword set of calculate_ats: jd keywords present in the
resume keyword set directly or through a shared synonym. -/
def matchedSet (syn : List ℕ → Finset (List ℕ)) (resume_text jd_text : List ℕ) :
    Finset (List ℕ) :=
  (extract_keywords jd_text).filter
    (fun w => w ∈ extract_keywords resume_text ∨
      (syn w ∩ extract_keywords resume_text).Nonempty)

/-- Missing keyword set of calculate_ats. -/
def missingSet (syn : List ℕ → Finset (List ℕ)) (resume_text jd_text : List ℕ) :
    Finset (List ℕ) :=
  (extract_keywords jd_text).filter
    (fun w => ¬(w ∈ extract_keywords resume_text ∨
      (syn w ∩ extract_keywords resume_text).Nonempty))

/-- Base score of calculate_ats. -/
def atsVal (syn : List ℕ → Finset (List ℕ)) (resume_text jd_text : List ℕ) : ℕ :=
  if extract_keywords jd_text = ∅ then 0
  else pyAts (matchedSet syn resume_text jd_text).card (extract_keywords jd_text).card

/-- Weighted score of calculate_ats. -/
def weightedVal (syn : List ℕ → Finset (List ℕ)) (resume_text jd_text : List ℕ) : ℕ :=
  min (atsVal syn resume_text jd_text
    + (matchedSet syn resume_text jd_text ∩ priority).card * 2) 100

/-!
Claim theorems.  The wordnet oracle is universally quantified where the
claims speak about all inputs; counterexamples instantiate it with the
empty oracle, which agrees with wordnet on the synthetic nonsense words
they use.
-/

/-- Synthetic keyword number i: the letter w followed by three decimal
digits, always a lowercase alphanumeric non-stopword token. -/
def exWord (i : ℕ) : List ℕ := [119, 48 + i / 100, 48 + i / 10 % 10, 48 + i % 10]

/-- Synthetic job description holding the 100 distinct keywords w000 to
w099, space separated. -/
def exJD : List ℕ := ((List.range 100).map (fun i => exWord i ++ [32])).flatten

/-- Synthetic resume holding the first 29 of those keywords. -/
def exResume : List ℕ := ((List.range 29).map (fun i => exWord i ++ [32])).flatten

/-- Wordnet oracle returning no synonyms for any word, as real wordnet
does on the synthetic tokens used below. -/
def wnEmpty : List ℕ → Finset (List ℕ) := fun _ => ∅

/-- Contrasting oracle returning a nonempty synonym set, used to show
that an evicted word is looked up in the database again: after eviction
the result tracks the oracle instead of the old cached value. -/
def wnSelf : List ℕ → Finset (List ℕ) := fun w => {w}

/-- Cache state of get_synonyms after looking up the given number of
distinct synthetic words, starting from the empty cache. -/
def synCacheAfter (steps : ℕ) : List (List ℕ × Finset (List ℕ)) :=
  (List.range steps).foldl (fun c i => (get_synonyms wnEmpty c (exWord i)).2) []

/-- Cache entry produced for a synthetic word: its key and the empty
synonym set returned by the oracle. -/
def exEntry (i : ℕ) : List ℕ × Finset (List ℕ) := (exWord i, ∅)

section TextModelTests

example : tokenize (str "hello  world") = [str "hello", str "world"] := by decide

example : clean_text (str "C++, SQL!") = str "c    sql " := by decide

example : extract_keywords (str "Python and SQL, the basics")
    = {str "python", str "sql", str "basics"} := by decide

example : extract_keywords (str "") = ∅ := by decide

end TextModelTests

section FloatModelTests

/- Anchor values, checked against CPython: int((2/3)*100) = 66,
int((1/3)*100) = 33, int((29/100)*100) = 28 (the exact quotient rounds
down twice), int((57/100)*100) = 56, int((7/10)*100) = 70 (the product
rounds up to 70.00000000000001), int((1/1)*100) = 100. -/
example : pyAts 2 3 = 66 := by decide
example : pyAts 1 3 = 33 := by decide
example : pyAts 29 100 = 28 := by decide
example : pyAts 57 100 = 56 := by decide
example : pyAts 7 10 = 70 := by decide
example : pyAts 1 1 = 100 := by decide
example : pyAts 0 5 = 0 := by decide
example : pyAts 99 100 = 99 := by decide
example : pyAts 1 7 = 14 := by decide

end FloatModelTests

section ScoreEngineTests

/- Scenario from the specification: JD "Python SQL AWS" against resume
"I know Python and SQL" with an oracle returning no synonyms. -/
example :
    calculate_ats (fun _ => ∅) (str "I know Python and SQL") (str "Python SQL AWS")
      = (66, 70, {str "python", str "sql"}, {str "aws"}) := by decide

example : calculate_ats (fun _ => ∅) (str "anything at all") (str "") = (0, 0, ∅, ∅) := by
  decide

/- Synonym matching: jd word "game" matched via an oracle linking it to
"gaming" present in the resume. -/
example :
    (calculate_ats (fun w => if w = str "game" then {str "gaming"} else ∅)
      (str "gaming nights") (str "game")).2.2.1 = {str "game"} := by decide

end ScoreEngineTests

example : fileExt (str "Resume.PDF") = str "pdf" := by decide
example : fileExt (str "a.b.docx") = str "docx" := by decide
example : fileExt (str "nodots") = str "nodots" := by decide

example :
    lruLookup (fun n => n + 1) 2 [] (5) = (6, [(5, 6)]) := by decide

example :
    lruLookup (fun n => n + 1) 2 [(7, 8), (5, 6)] (9) = (10, [(9, 10), (7, 8)]) := by
  decide

/-!
Correctness lemmas for the float model.  The proofs run over ℚ; the
definitions stay over ℕ and ℤ so that the kernel can evaluate them.
-/

theorem log2fuel_le (fuel : ℕ) : ∀ n : ℕ, 1 ≤ n → n ≤ fuel → 2 ^ log2fuel fuel n ≤ n := by
  induction fuel with
  | zero => intro n h1 h2; omega
  | succ f ih =>
      intro n h1 h2
      rw [log2fuel]
      by_cases h : 2 ≤ n
      · rw [if_pos h, pow_succ]
        have hd := ih (n / 2) (by omega) (by omega)
        omega
      · rw [if_neg h]; simpa using h1

theorem natLog2_le (n : ℕ) (h : 1 ≤ n) : 2 ^ natLog2 n ≤ n :=
  log2fuel_le n n h le_rfl

theorem log2fuel_lt (fuel : ℕ) : ∀ n : ℕ, n ≤ fuel → n < 2 ^ (log2fuel fuel n + 1) := by
  induction fuel with
  | zero =>
      intro n h2
      have : n = 0 := by omega
      subst this
      rw [log2fuel]; omega
  | succ f ih =>
      intro n h2
      rw [log2fuel]
      by_cases h : 2 ≤ n
      · rw [if_pos h]
        have hd := ih (n / 2) (by omega)
        rw [pow_succ] at hd ⊢
        rw [pow_succ]
        omega
      · rw [if_neg h]; omega

theorem natLog2_lt (n : ℕ) : n < 2 ^ (natLog2 n + 1) :=
  log2fuel_lt n n le_rfl

theorem clog2fracFuel_ge (fuel : ℕ) :
    ∀ m n : ℕ, 1 ≤ m → n ≤ m + fuel → n ≤ m * 2 ^ clog2fracFuel fuel m n := by
  induction fuel with
  | zero => intro m n h1 h2; rw [clog2fracFuel]; simpa using h2
  | succ f ih =>
      intro m n h1 h2
      rw [clog2fracFuel]
      by_cases h : n ≤ m
      · rw [if_pos h]; simpa using h
      · rw [if_neg h]
        have hd := ih (2 * m) n (by omega) (by omega)
        calc n ≤ 2 * m * 2 ^ clog2fracFuel f (2 * m) n := hd
          _ = m * 2 ^ (clog2fracFuel f (2 * m) n + 1) := by ring

theorem fracClog2_ge (m n : ℕ) (h1 : 1 ≤ m) : n ≤ m * 2 ^ fracClog2 m n :=
  clog2fracFuel_ge n m n h1 (by omega)

theorem clog2fracFuel_zero_of_le (fuel m n : ℕ) (h : n ≤ m) : clog2fracFuel fuel m n = 0 := by
  cases fuel with
  | zero => rw [clog2fracFuel]
  | succ f => rw [clog2fracFuel, if_pos h]

theorem clog2fracFuel_min (fuel : ℕ) :
    ∀ m n : ℕ, 1 ≤ m → m < n → m * 2 ^ (clog2fracFuel fuel m n - 1) < n := by
  induction fuel with
  | zero => intro m n h1 h2; rw [clog2fracFuel]; simpa using h2
  | succ f ih =>
      intro m n h1 h2
      rw [clog2fracFuel, if_neg (by omega)]
      by_cases h : 2 * m < n
      · have hd := ih (2 * m) n (by omega) h
        rcases Nat.eq_zero_or_pos (clog2fracFuel f (2 * m) n) with hc | hc
        · rw [hc]; simpa using h2
        · have he : clog2fracFuel f (2 * m) n + 1 - 1
              = (clog2fracFuel f (2 * m) n - 1) + 1 := by omega
          rw [he, pow_succ]
          calc m * (2 ^ (clog2fracFuel f (2 * m) n - 1) * 2)
              = 2 * m * 2 ^ (clog2fracFuel f (2 * m) n - 1) := by ring
            _ < n := hd
      · rw [clog2fracFuel_zero_of_le f (2 * m) n (by omega)]
        simpa using h2

theorem fracClog2_min (m n : ℕ) (h1 : 1 ≤ m) (h2 : m < n) :
    m * 2 ^ (fracClog2 m n - 1) < n :=
  clog2fracFuel_min n m n h1 h2

theorem fracClog2_pos (m n : ℕ) (h2 : m < n) : 1 ≤ fracClog2 m n := by
  have hn : n = (n - 1) + 1 := by omega
  rw [fracClog2, hn, clog2fracFuel, if_neg (by omega)]
  omega

theorem pow2z_pos (e : ℤ) : 0 < pow2z e := by
  rw [pow2z]; split <;> positivity

theorem pow2z_ofNat (a : ℕ) : pow2z (a : ℤ) = 2 ^ a := by
  rw [pow2z, if_pos (by omega)]
  norm_num

theorem pow2z_negOfNat (a : ℕ) : pow2z (-(a : ℤ)) = 1 / 2 ^ a := by
  cases a with
  | zero => rw [pow2z]; norm_num
  | succ b =>
      rw [pow2z, if_neg (by omega)]
      congr 1

theorem pow2z_sub_one (e : ℤ) : pow2z (e - 1) = pow2z e / 2 := by
  by_cases h : 1 ≤ e
  · rw [pow2z, if_pos (by omega : (0:ℤ) ≤ e - 1), pow2z, if_pos (by omega : (0:ℤ) ≤ e)]
    have ht : e.toNat = (e - 1).toNat + 1 := by omega
    rw [ht, pow_succ]
    ring
  · rw [pow2z, if_neg (by omega : ¬ (0:ℤ) ≤ e - 1), pow2z]
    by_cases h0 : 0 ≤ e
    · have he : e = 0 := by omega
      subst he
      norm_num
    · rw [if_neg h0]
      have ht : (-(e - 1)).toNat = (-e).toNat + 1 := by omega
      rw [ht, pow_succ]
      field_simp

theorem pow2z_sub_nat (e : ℤ) (a : ℕ) : pow2z (e - a) = pow2z e / 2 ^ a := by
  induction a with
  | zero => norm_num
  | succ b ih =>
      have hs : e - ((b : ℤ) + 1) = (e - b) - 1 := by ring
      push_cast
      rw [hs, pow2z_sub_one, ih, pow_succ]
      ring

theorem pow2z_add_nat (e : ℤ) (a : ℕ) : pow2z (e + a) = pow2z e * 2 ^ a := by
  have h := pow2z_sub_nat (e + a) a
  rw [show e + (a : ℤ) - a = e by ring] at h
  rw [h]
  field_simp

theorem pow2z_toNat (e : ℤ) (h : 0 ≤ e) : pow2z e = 2 ^ e.toNat := by
  rw [pow2z, if_pos h]

theorem pow2z_negToNat (e : ℤ) (h : e < 0) : pow2z e = 1 / 2 ^ (-e).toNat := by
  rw [pow2z, if_neg (by omega)]

theorem fracLog2_le (m n : ℕ) (hm : 1 ≤ m) (hn : 1 ≤ n) :
    pow2z (fracLog2 m n) ≤ (m : ℚ) / n := by
  rw [fracLog2]
  by_cases h : n ≤ m
  · rw [if_pos h, pow2z_ofNat]
    have h1 : 1 ≤ m / n := (Nat.one_le_div_iff (by omega)).mpr h
    have h2 : 2 ^ natLog2 (m / n) ≤ m / n := natLog2_le _ h1
    calc (2:ℚ) ^ natLog2 (m / n) ≤ ((m / n : ℕ) : ℚ) := by exact_mod_cast h2
      _ ≤ (m : ℚ) / n := Nat.cast_div_le
  · rw [if_neg h, pow2z_negOfNat]
    have hge : n ≤ m * 2 ^ fracClog2 m n := fracClog2_ge m n hm
    rw [div_le_div_iff (by positivity) (by exact_mod_cast hn : (0:ℚ) < n)]
    have : (n : ℚ) ≤ (m : ℚ) * 2 ^ fracClog2 m n := by exact_mod_cast hge
    linarith

theorem fracLog2_lt (m n : ℕ) (hm : 1 ≤ m) (hn : 1 ≤ n) :
    (m : ℚ) / n < pow2z (fracLog2 m n + 1) := by
  rw [fracLog2]
  by_cases h : n ≤ m
  · rw [if_pos h]
    rw [show (natLog2 (m / n) : ℤ) + 1 = ((natLog2 (m / n) + 1 : ℕ) : ℤ) by push_cast; ring,
      pow2z_ofNat]
    have h2 : m / n < 2 ^ (natLog2 (m / n) + 1) := natLog2_lt _
    have key : (m : ℚ) / n < ((m / n : ℕ) : ℚ) + 1 := by
      rw [div_lt_iff (by exact_mod_cast hn : (0:ℚ) < n)]
      have h5 : (n : ℚ) * ((m / n : ℕ) : ℚ) + ((m % n : ℕ) : ℚ) = (m : ℚ) := by
        exact_mod_cast Nat.div_add_mod m n
      have h6 : ((m % n : ℕ) : ℚ) < (n : ℚ) := by
        exact_mod_cast Nat.mod_lt m (show 0 < n by omega)
      have h7 : (((m / n : ℕ) : ℚ) + 1) * n = (n : ℚ) * ((m / n : ℕ) : ℚ) + n := by ring
      linarith
    have h3 : ((m / n : ℕ) : ℚ) + 1 ≤ 2 ^ (natLog2 (m / n) + 1) := by exact_mod_cast h2
    linarith
  · rw [if_neg h]
    have hc1 : 1 ≤ fracClog2 m n := fracClog2_pos m n (by omega)
    rw [show -(fracClog2 m n : ℤ) + 1 = -((fracClog2 m n - 1 : ℕ) : ℤ) by push_cast [hc1]; ring,
      pow2z_negOfNat]
    have hmin : m * 2 ^ (fracClog2 m n - 1) < n := fracClog2_min m n hm (by omega)
    rw [div_lt_div_iff (by exact_mod_cast hn : (0:ℚ) < n) (by positivity)]
    have : (m : ℚ) * 2 ^ (fracClog2 m n - 1) < n := by exact_mod_cast hmin
    linarith

theorem rheNat_le (p q : ℕ) (hq : 1 ≤ q) : (rheNat p q : ℚ) ≤ (p : ℚ) / q + 1 / 2 := by
  have hq0 : (0:ℚ) < q := by exact_mod_cast hq
  have hmod : (q : ℚ) * ((p / q : ℕ) : ℚ) + ((p % q : ℕ) : ℚ) = (p : ℚ) := by
    exact_mod_cast Nat.div_add_mod p q
  have hdiv : (p : ℚ) / q = ((p / q : ℕ) : ℚ) + ((p % q : ℕ) : ℚ) / q := by
    rw [← hmod]
    field_simp
    ring
  rw [rheNat]
  split_ifs with h1 h2 h3
  · have hr : ((p % q : ℕ) : ℚ) / q < 1 / 2 := by
      rw [div_lt_div_iff hq0 (by norm_num)]
      have : (2 : ℚ) * ((p % q : ℕ) : ℚ) < q := by exact_mod_cast h1
      linarith
    rw [hdiv]
    have hr0 : (0:ℚ) ≤ ((p % q : ℕ) : ℚ) / q := by positivity
    linarith
  · have hr : (1 : ℚ) / 2 < ((p % q : ℕ) : ℚ) / q := by
      rw [div_lt_div_iff (by norm_num) hq0]
      have : (q : ℚ) < 2 * ((p % q : ℕ) : ℚ) := by exact_mod_cast h2
      linarith
    rw [hdiv]
    push_cast
    linarith
  · have hr : ((p % q : ℕ) : ℚ) / q = 1 / 2 := by
      have he : 2 * (p % q) = q := by omega
      rw [div_eq_div_iff (ne_of_gt hq0) (by norm_num : (2:ℚ) ≠ 0)]
      have : (2 : ℚ) * ((p % q : ℕ) : ℚ) = q := by exact_mod_cast he
      linarith
    rw [hdiv]
    linarith
  · have hr : ((p % q : ℕ) : ℚ) / q = 1 / 2 := by
      have he : 2 * (p % q) = q := by omega
      rw [div_eq_div_iff (ne_of_gt hq0) (by norm_num : (2:ℚ) ≠ 0)]
      have : (2 : ℚ) * ((p % q : ℕ) : ℚ) = q := by exact_mod_cast he
      linarith
    rw [hdiv]
    push_cast
    linarith

theorem rnFrac_le (m n : ℕ) (hm : 1 ≤ m) (hn : 1 ≤ n) :
    dyVal (rnFrac m n).1 (rnFrac m n).2 ≤ (m : ℚ) / n * (1 + 1 / 2 ^ 53) := by
  have hn0 : (0:ℚ) < n := by exact_mod_cast hn
  have hk_le := fracLog2_le m n hm hn
  have hgrid : pow2z (fracLog2 m n - 52) = pow2z (fracLog2 m n) / 2 ^ 52 :=
    pow2z_sub_nat _ 52
  have hgb : pow2z (fracLog2 m n - 52) ≤ (m : ℚ) / n / 2 ^ 52 := by
    rw [hgrid]
    gcongr
  have htail : (m : ℚ) / n + pow2z (fracLog2 m n - 52) / 2
      ≤ (m : ℚ) / n * (1 + 1 / 2 ^ 53) := by
    have hx : (m : ℚ) / n / 2 ^ 52 / 2 = (m : ℚ) / n * (1 / 2 ^ 53) := by
      ring
    have : pow2z (fracLog2 m n - 52) / 2 ≤ (m : ℚ) / n * (1 / 2 ^ 53) := by
      rw [← hx]
      linarith
    linarith [this]
  simp only [rnFrac, dyVal]
  split_ifs with he
  · set a := (fracLog2 m n - 52).toNat with ha
    have hq : 1 ≤ n * 2 ^ a := Nat.mul_pos (by omega) (Nat.two_pow_pos a)
    have hrhe := rheNat_le m (n * 2 ^ a) hq
    have hcast : ((n * 2 ^ a : ℕ) : ℚ) = (n : ℚ) * 2 ^ a := by push_cast; ring
    rw [hcast] at hrhe
    have hpz : pow2z (fracLog2 m n - 52) = 2 ^ a := pow2z_toNat _ he
    have hpa : (0:ℚ) < 2 ^ a := by positivity
    have step1 : ((rheNat m (n * 2 ^ a) : ℕ) : ℚ) * pow2z (fracLog2 m n - 52)
        ≤ ((m : ℚ) / ((n : ℚ) * 2 ^ a) + 1 / 2) * 2 ^ a := by
      rw [hpz]
      exact mul_le_mul_of_nonneg_right hrhe (by positivity)
    have step2 : ((m : ℚ) / ((n : ℚ) * 2 ^ a) + 1 / 2) * 2 ^ a
        = (m : ℚ) / n + 2 ^ a / 2 := by
      field_simp
      ring
    rw [step2] at step1
    rw [hpz] at htail
    linarith
  · set b := (-(fracLog2 m n - 52)).toNat with hb
    have hrhe := rheNat_le (m * 2 ^ b) n hn
    have hcast : ((m * 2 ^ b : ℕ) : ℚ) = (m : ℚ) * 2 ^ b := by push_cast; ring
    rw [hcast] at hrhe
    have hpz : pow2z (fracLog2 m n - 52) = 1 / 2 ^ b := pow2z_negToNat _ (by omega)
    have hpb : (0:ℚ) < 2 ^ b := by positivity
    have step1 : ((rheNat (m * 2 ^ b) n : ℕ) : ℚ) * pow2z (fracLog2 m n - 52)
        ≤ ((m : ℚ) * 2 ^ b / n + 1 / 2) * (1 / 2 ^ b) := by
      rw [hpz]
      exact mul_le_mul_of_nonneg_right hrhe (by positivity)
    have step2 : ((m : ℚ) * 2 ^ b / n + 1 / 2) * (1 / 2 ^ b)
        = (m : ℚ) / n + (1 / 2 ^ b) / 2 := by
      field_simp
      ring
    rw [step2] at step1
    rw [hpz] at htail
    linarith

theorem rnScale_le (d : ℕ) (e : ℤ) :
    dyVal (rnScale d e).1 (rnScale d e).2 ≤ dyVal d e * (1 + 1 / 2 ^ 53) := by
  rcases Nat.eq_zero_or_pos d with hd | hd
  · subst hd
    norm_num [rnScale, dyVal, natLog2, log2fuel]
  · have hlog_le : 2 ^ natLog2 d ≤ d := natLog2_le d hd
    have hpe : (0:ℚ) < pow2z e := pow2z_pos e
    simp only [rnScale, dyVal]
    split_ifs with hs
    · set a := ((natLog2 d : ℤ) - 52).toNat with ha
      have haa : (a : ℤ) = (natLog2 d : ℤ) - 52 := by omega
      have ha52 : a + 52 = natLog2 d := by omega
      have hq : 1 ≤ 2 ^ a := Nat.one_le_two_pow
      have hrhe := rheNat_le d (2 ^ a) hq
      have hcast : ((2 ^ a : ℕ) : ℚ) = (2 : ℚ) ^ a := by push_cast; ring
      rw [hcast] at hrhe
      have hsplit : pow2z (e + ((natLog2 d : ℤ) - 52)) = pow2z e * 2 ^ a := by
        rw [← haa]
        exact pow2z_add_nat e a
      have hkey : (2 : ℚ) ^ a * 2 ^ 52 ≤ d := by
        have : (2 : ℚ) ^ (a + 52) ≤ d := by exact_mod_cast (ha52 ▸ hlog_le)
        rw [pow_add] at this
        linarith
      have hpa : (0:ℚ) < 2 ^ a := by positivity
      have step1 : ((rheNat d (2 ^ a) : ℕ) : ℚ) * pow2z (e + ((natLog2 d : ℤ) - 52))
          ≤ ((d : ℚ) / 2 ^ a + 1 / 2) * (pow2z e * 2 ^ a) := by
        rw [hsplit]
        exact mul_le_mul_of_nonneg_right hrhe (by positivity)
      have step2 : ((d : ℚ) / 2 ^ a + 1 / 2) * (pow2z e * 2 ^ a)
          = (d : ℚ) * pow2z e + (2 ^ a / 2) * pow2z e := by
        field_simp
        ring
      rw [step2] at step1
      have step3 : ((2:ℚ) ^ a / 2) * pow2z e ≤ ((d : ℚ) / 2 ^ 53) * pow2z e := by
        apply mul_le_mul_of_nonneg_right _ (le_of_lt hpe)
        rw [div_le_div_iff (by norm_num) (by norm_num : (0:ℚ) < 2 ^ 53)]
        have h2 : (2:ℚ) ^ 53 = 2 ^ 52 * 2 := by norm_num
        rw [h2]
        nlinarith [hkey]
      have hfin : (d : ℚ) * pow2z e * (1 + 1 / 2 ^ 53)
          = (d : ℚ) * pow2z e + ((d : ℚ) / 2 ^ 53) * pow2z e := by
        ring
      rw [hfin]
      linarith
    · set b := (-((natLog2 d : ℤ) - 52)).toNat with hb
      have hbb : ((natLog2 d : ℤ) - 52) = -(b : ℤ) := by omega
      have hsplit : pow2z (e + ((natLog2 d : ℤ) - 52)) = pow2z e / 2 ^ b := by
        rw [hbb, show e + -(b : ℤ) = e - b by ring]
        exact pow2z_sub_nat e b
      have hcast : ((d * 2 ^ b : ℕ) : ℚ) = (d : ℚ) * 2 ^ b := by push_cast; ring
      rw [hcast, hsplit]
      have hpb : (0:ℚ) < 2 ^ b := by positivity
      have hval : (d : ℚ) * 2 ^ b * (pow2z e / 2 ^ b) = (d : ℚ) * pow2z e := by
        field_simp
        ring
      rw [hval]
      apply le_mul_of_one_le_right (by positivity)
      norm_num

theorem dyadicFloor_le (d : ℕ) (e : ℤ) : (dyadicFloor d e : ℚ) ≤ dyVal d e := by
  simp only [dyadicFloor, dyVal]
  split_ifs with h
  · rw [pow2z_toNat _ h]
    push_cast
    exact le_refl _
  · rw [pow2z_negToNat _ (by omega)]
    calc ((d / 2 ^ (-e).toNat : ℕ) : ℚ) ≤ (d : ℚ) / ((2 ^ (-e).toNat : ℕ) : ℚ) :=
          Nat.cast_div_le
      _ = (d : ℚ) * (1 / 2 ^ (-e).toNat) := by push_cast; ring

theorem rheNat_zero (q : ℕ) : rheNat 0 q = 0 := by
  rw [rheNat]
  simp only [Nat.zero_mod, Nat.zero_div, Nat.mul_zero]
  split_ifs <;> omega

theorem pyAts_zero (n : ℕ) : pyAts 0 n = 0 := by
  simp only [pyAts, rnFrac, rnScale, dyadicFloor]
  split_ifs <;>
    simp [rheNat_zero, Nat.zero_div, natLog2, log2fuel]

theorem pyAts_le_100 (m n : ℕ) (h : m ≤ n) : pyAts m n ≤ 100 := by
  rcases Nat.eq_zero_or_pos m with hm | hm
  · subst hm
    rw [pyAts_zero]
    omega
  · have hn : 1 ≤ n := by omega
    have hn0 : (0:ℚ) < n := by exact_mod_cast hn
    have h1 : dyVal (rnFrac m n).1 (rnFrac m n).2 ≤ (m : ℚ) / n * (1 + 1 / 2 ^ 53) :=
      rnFrac_le m n hm hn
    have h2 := rnScale_le ((rnFrac m n).1 * 100) (rnFrac m n).2
    have h3 : dyVal ((rnFrac m n).1 * 100) (rnFrac m n).2
        = 100 * dyVal (rnFrac m n).1 (rnFrac m n).2 := by
      simp only [dyVal]
      push_cast
      ring
    have h4 : (m : ℚ) / n ≤ 1 := by
      rw [div_le_one hn0]
      exact_mod_cast h
    have h5 := dyadicFloor_le (rnScale ((rnFrac m n).1 * 100) (rnFrac m n).2).1
      (rnScale ((rnFrac m n).1 * 100) (rnFrac m n).2).2
    have hats : pyAts m n
        = dyadicFloor (rnScale ((rnFrac m n).1 * 100) (rnFrac m n).2).1
          (rnScale ((rnFrac m n).1 * 100) (rnFrac m n).2).2 := rfl
    have hfinal : (pyAts m n : ℚ) < 101 := by
      rw [hats]
      rw [h3] at h2
      have hc : ((1:ℚ) + 1 / 2 ^ 53) = 9007199254740993 / 9007199254740992 := by
        norm_num
      rw [hc] at h1 h2
      linarith
    have : pyAts m n < 101 := by exact_mod_cast hfinal
    omega

/-!
Lemmas about the text pipeline.
-/

theorem clean_text_char (c : ℕ) :
    (isLowerAlnum (if isLowerAlnum (pyLower c) || pyIsSpace (pyLower c)
        then pyLower c else 32)
      || pyIsSpace (if isLowerAlnum (pyLower c) || pyIsSpace (pyLower c)
        then pyLower c else 32)) = true := by
  split_ifs with h
  · exact h
  · rfl

theorem pyLower_fixed (c : ℕ) (h : (isLowerAlnum c || pyIsSpace c) = true) :
    pyLower c = c := by
  simp only [isLowerAlnum, pyIsSpace, Bool.or_eq_true, Bool.and_eq_true,
    decide_eq_true_eq, beq_iff_eq] at h
  rw [pyLower, if_neg (by omega)]

theorem clean_text_idem (t : List ℕ) : clean_text (clean_text t) = clean_text t := by
  simp only [clean_text, List.map_map]
  apply List.map_congr_left
  intro c _
  simp only [Function.comp]
  rw [pyLower_fixed _ (clean_text_char c), if_pos (clean_text_char c)]

theorem tokenizeAux_sound (s : List ℕ) :
    ∀ acc : List ℕ, (∀ c ∈ acc, isWordChar c = true) →
      ∀ tok ∈ tokenizeAux s acc,
        tok ≠ [] ∧ ∀ c ∈ tok, isWordChar c = true ∧ (c ∈ s ∨ c ∈ acc) := by
  induction s with
  | nil =>
      intro acc hacc tok htok
      rw [tokenizeAux] at htok
      split_ifs at htok with h
      · simp at htok
      · simp only [List.mem_singleton] at htok
        subst htok
        refine ⟨by simpa using h, ?_⟩
        intro c hc
        rw [List.mem_reverse] at hc
        exact ⟨hacc c hc, Or.inr hc⟩
  | cons a s ih =>
      intro acc hacc tok htok
      rw [tokenizeAux] at htok
      split_ifs at htok with h1 h2
      · -- word character: token continues
        have hacc2 : ∀ c ∈ a :: acc, isWordChar c = true := by
          intro c hc
          rcases List.mem_cons.mp hc with hc | hc
          · subst hc; exact h1
          · exact hacc c hc
        obtain ⟨hne, hmem⟩ := ih (a :: acc) hacc2 tok htok
        refine ⟨hne, ?_⟩
        intro c hc
        obtain ⟨hw, hsrc⟩ := hmem c hc
        refine ⟨hw, ?_⟩
        rcases hsrc with hs | hs
        · exact Or.inl (List.mem_cons_of_mem a hs)
        · rcases List.mem_cons.mp hs with hs | hs
          · subst hs; exact Or.inl (List.mem_cons_self _ _)
          · exact Or.inr hs
      · -- separator with empty accumulator
        obtain ⟨hne, hmem⟩ := ih [] (by simp) tok htok
        refine ⟨hne, ?_⟩
        intro c hc
        obtain ⟨hw, hsrc⟩ := hmem c hc
        rcases hsrc with hs | hs
        · exact ⟨hw, Or.inl (List.mem_cons_of_mem a hs)⟩
        · simp at hs
      · -- separator flushing the accumulator
        rcases List.mem_cons.mp htok with hflush | hrest
        · subst hflush
          refine ⟨by simpa using h2, ?_⟩
          intro c hc
          rw [List.mem_reverse] at hc
          exact ⟨hacc c hc, Or.inr hc⟩
        · obtain ⟨hne, hmem⟩ := ih [] (by simp) tok hrest
          refine ⟨hne, ?_⟩
          intro c hc
          obtain ⟨hw, hsrc⟩ := hmem c hc
          rcases hsrc with hs | hs
          · exact ⟨hw, Or.inl (List.mem_cons_of_mem a hs)⟩
          · simp at hs

theorem clean_text_mem (t : List ℕ) (c : ℕ) (hc : c ∈ clean_text t) :
    (isLowerAlnum c || pyIsSpace c) = true := by
  simp only [clean_text, List.map_map, List.mem_map] at hc
  obtain ⟨x, _, hx⟩ := hc
  simp only [Function.comp] at hx
  subst hx
  exact clean_text_char x

theorem lowerAlnum_of_word_clean (c : ℕ) (h1 : isWordChar c = true)
    (h2 : (isLowerAlnum c || pyIsSpace c) = true) : isLowerAlnum c = true := by
  simp only [isWordChar, isLowerAlnum, pyIsSpace, Bool.or_eq_true, Bool.and_eq_true,
    decide_eq_true_eq, beq_iff_eq] at h1 h2 ⊢
  omega

theorem extract_keywords_sound (t : List ℕ) (w : List ℕ) (hw : w ∈ extract_keywords t) :
    w ≠ [] ∧ (∀ c ∈ w, isLowerAlnum c = true) ∧ w ∉ stopwords := by
  simp only [extract_keywords, List.mem_toFinset, List.mem_filter,
    decide_eq_true_eq] at hw
  obtain ⟨htok, hstop⟩ := hw
  obtain ⟨hne, hmem⟩ := tokenizeAux_sound (clean_text t) [] (by simp) w htok
  refine ⟨hne, ?_, hstop⟩
  intro c hc
  obtain ⟨hword, hsrc⟩ := hmem c hc
  rcases hsrc with hs | hs
  · exact lowerAlnum_of_word_clean c hword (clean_text_mem t c hs)
  · simp at hs

/-!
Lemmas about the lru_cache model.
-/

theorem length_filter_lt_of_mem {α : Type} (l : List α) (p : α → Bool) (x : α)
    (hx : x ∈ l) (hpx : p x = false) : (l.filter p).length < l.length := by
  induction l with
  | nil => simp at hx
  | cons a l ih =>
      rcases List.mem_cons.mp hx with h | h
      · subst h
        rw [List.filter_cons, if_neg (by simp [hpx])]
        have := List.length_filter_le p l
        simp only [List.length_cons]
        omega
      · rw [List.filter_cons]
        have := ih h
        split_ifs with hp
        · simp only [List.length_cons]
          omega
        · have hle := List.length_filter_le p l
          simp only [List.length_cons]
          omega

theorem lruLookup_hit {K V : Type} [DecidableEq K] (f g : K → V) (cap : ℕ)
    (cache : List (K × V)) (k : K) (p : K × V)
    (h : cache.find? (fun q => q.1 = k) = some p) :
    (lruLookup f cap cache k).1 = p.2 ∧
      lruLookup f cap cache k = lruLookup g cap cache k := by
  rw [lruLookup, lruLookup, h]
  exact ⟨rfl, rfl⟩

theorem lruLookup_miss {K V : Type} [DecidableEq K] (f : K → V) (cap : ℕ)
    (cache : List (K × V)) (k : K)
    (h : cache.find? (fun q => q.1 = k) = none) :
    (lruLookup f cap cache k).1 = f k := by
  rw [lruLookup, h]

theorem lruLookup_length {K V : Type} [DecidableEq K] (f : K → V) (cap : ℕ)
    (cache : List (K × V)) (k : K) (h : cache.length ≤ cap) :
    (lruLookup f cap cache k).2.length ≤ cap := by
  rw [lruLookup]
  cases hf : cache.find? (fun q => q.1 = k) with
  | none =>
      simp only [List.length_take]
      omega
  | some p =>
      have hmem : p ∈ cache := List.mem_of_find?_eq_some hf
      have hp := List.find?_some hf
      simp only [decide_eq_true_eq] at hp
      have hlt : (cache.filter (fun q => decide (¬q.1 = k))).length < cache.length := by
        apply length_filter_lt_of_mem cache _ p hmem
        simp [hp]
      simp only [List.length_cons]
      omega

theorem lruLookup_consistent {K V : Type} [DecidableEq K] (f : K → V) (cap : ℕ)
    (cache : List (K × V)) (k : K) (hc : ∀ p ∈ cache, p.2 = f p.1) :
    (lruLookup f cap cache k).1 = f k ∧
      ∀ p ∈ (lruLookup f cap cache k).2, p.2 = f p.1 := by
  rw [lruLookup]
  cases hf : cache.find? (fun q => q.1 = k) with
  | none =>
      refine ⟨rfl, ?_⟩
      show ∀ p ∈ ((k, f k) :: cache).take cap, p.2 = f p.1
      intro p hp
      have hp2 : p ∈ (k, f k) :: cache := List.mem_of_mem_take hp
      rcases List.mem_cons.mp hp2 with hp3 | hp3
      · subst hp3; rfl
      · exact hc p hp3
  | some p =>
      have hmem : p ∈ cache := List.mem_of_find?_eq_some hf
      have hp0 := List.find?_some hf
      have hp : p.1 = k := by simpa using hp0
      refine ⟨?_, ?_⟩
      · show p.2 = f k
        rw [hc p hmem, hp]
      · show ∀ q ∈ (k, p.2) :: cache.filter (fun q => decide (¬q.1 = k)), q.2 = f q.1
        intro q hq
        rcases List.mem_cons.mp hq with hq | hq
        · subst hq
          show p.2 = f k
          rw [hc p hmem, hp]
        · exact hc q (List.mem_of_mem_filter hq)

theorem calculate_ats_fst (syn : List ℕ → Finset (List ℕ)) (r j : List ℕ) :
    (calculate_ats syn r j).1 = atsVal syn r j := rfl

theorem calculate_ats_weighted (syn : List ℕ → Finset (List ℕ)) (r j : List ℕ) :
    (calculate_ats syn r j).2.1 = weightedVal syn r j := rfl

theorem calculate_ats_matched (syn : List ℕ → Finset (List ℕ)) (r j : List ℕ) :
    (calculate_ats syn r j).2.2.1 = matchedSet syn r j := rfl

theorem calculate_ats_missing (syn : List ℕ → Finset (List ℕ)) (r j : List ℕ) :
    (calculate_ats syn r j).2.2.2 = missingSet syn r j := rfl

/-!
Lemmas about the highlighter loop.
-/

theorem kwStep_acc {Page Rect : Type} (sf : Page → List ℕ → Except PyError (List Rect))
    (gw : Page → Except PyError (List (Rect × List ℕ))) (p : Page) (kw : List ℕ)
    (acc : List Rect) :
    (kwStep sf gw p kw acc).1 = acc ++ (kwStep sf gw p kw []).1 := by
  rw [kwStep, kwStep]
  cases sf p kw with
  | error e => simp
  | ok found =>
      cases gw p with
      | error e => simp
      | ok ws => simp

theorem foldl_kwStep {Page Rect : Type} (sf : Page → List ℕ → Except PyError (List Rect))
    (gw : Page → Except PyError (List (Rect × List ℕ))) (p : Page) :
    ∀ (kws : List (List ℕ)) (acc : List Rect),
      kws.foldl (fun a kw => (kwStep sf gw p kw a).1) acc
        = acc ++ (kws.map (fun kw => (kwStep sf gw p kw []).1)).flatten := by
  intro kws
  induction kws with
  | nil => intro acc; simp
  | cons k ks ih =>
      intro acc
      rw [List.foldl_cons, ih, kwStep_acc]
      simp

/-- C1, counterexample: on a job description with 100 keywords of which
exactly 29 are matched, the code returns ats = 28 while
floor(100 * 29 / 100) = 29.  Python evaluates int((29/100)*100) in
binary64: 29/100 rounds below 0.29, the product rounds to
28.999999999999996, and int truncates to 28.  The claimed floor formula
is therefore not the value the code returns. -/
theorem c1_counterexample :
    (calculate_ats (fun _ => ∅) exResume exJD).1 = 28 ∧
    (calculate_ats (fun _ => ∅) exResume exJD).2.2.1.card = 29 ∧
    (extract_keywords exJD).card = 100 ∧
    100 * 29 / 100 = 29 ∧
    (calculate_ats (fun _ => ∅) exResume exJD).1
      ≠ 100 * (calculate_ats (fun _ => ∅) exResume exJD).2.2.1.card
          / (extract_keywords exJD).card := by
  refine ⟨by decide, by decide, by decide, by decide, by decide⟩

/-- C1 (amended): an empty job-description keyword set yields ats = 0;
otherwise ats is the binary64 evaluation of int((matched/total)*100),
which truncates toward zero and in particular yields exactly 66 for 2
matches out of 3 keywords (but can fall one below the exact floor, as the
counterexample records). -/
theorem c1_amended (syn : List ℕ → Finset (List ℕ)) (resume_text jd_text : List ℕ) :
    (extract_keywords jd_text = ∅ → (calculate_ats syn resume_text jd_text).1 = 0) ∧
    (extract_keywords jd_text ≠ ∅ →
      (calculate_ats syn resume_text jd_text).1
        = pyAts (matchedSet syn resume_text jd_text).card
            (extract_keywords jd_text).card) ∧
    ((extract_keywords jd_text).card = 3 →
      (matchedSet syn resume_text jd_text).card = 2 →
      (calculate_ats syn resume_text jd_text).1 = 66) := by
  rw [calculate_ats_fst]
  refine ⟨?_, ?_, ?_⟩
  · intro h
    rw [atsVal, if_pos h]
  · intro h
    rw [atsVal, if_neg h]
  · intro h3 h2
    have hne : ¬ extract_keywords jd_text = ∅ := by
      intro h
      rw [h] at h3
      simp at h3
    rw [atsVal, if_neg hne, h2, h3]
    decide

/-- C1 witness: the scenario of the specification, JD with the three
keywords python, sql, aws and a resume matching two of them, evaluates to
exactly 66. -/
theorem c1_witness :
    (extract_keywords (str "Python SQL AWS")).card = 3 ∧
    (matchedSet (fun _ => ∅) (str "I know Python and SQL") (str "Python SQL AWS")).card = 2 ∧
    (calculate_ats (fun _ => ∅) (str "I know Python and SQL") (str "Python SQL AWS")).1 = 66 :=
  ⟨by decide, by decide,
    (c1_amended (fun _ => ∅) (str "I know Python and SQL") (str "Python SQL AWS")).2.2
      (by decide) (by decide)⟩

/-- C2: the weighted score equals min(ats + 2 * |matched ∩ priority|, 100);
ats always lies in 0..100, weighted is at least ats and at most 100. -/
theorem c2_weighted_bounds (syn : List ℕ → Finset (List ℕ)) (r j : List ℕ) :
    (calculate_ats syn r j).2.1
      = min ((calculate_ats syn r j).1
          + 2 * ((calculate_ats syn r j).2.2.1 ∩ priority).card) 100 ∧
    (calculate_ats syn r j).1 ≤ 100 ∧
    (calculate_ats syn r j).1 ≤ (calculate_ats syn r j).2.1 ∧
    (calculate_ats syn r j).2.1 ≤ 100 := by
  rw [calculate_ats_weighted, calculate_ats_fst, calculate_ats_matched]
  have hm : (matchedSet syn r j).card ≤ (extract_keywords j).card :=
    Finset.card_filter_le _ _
  have hats : atsVal syn r j ≤ 100 := by
    rw [atsVal]
    split_ifs with h
    · omega
    · exact pyAts_le_100 _ _ hm
  refine ⟨?_, hats, ?_, ?_⟩
  · rw [weightedVal, Nat.mul_comm ((matchedSet syn r j ∩ priority).card) 2]
  · rw [weightedVal]
    exact Nat.le_min.mpr ⟨Nat.le_add_right _ _, hats⟩
  · rw [weightedVal]
    exact Nat.min_le_right _ _

/-- C3: matched and missing partition the job-description keyword set:
their union is extract_keywords of the job description and their
intersection is empty. -/
theorem c3_partition (syn : List ℕ → Finset (List ℕ)) (r j : List ℕ) :
    (calculate_ats syn r j).2.2.1 ∪ (calculate_ats syn r j).2.2.2 = extract_keywords j ∧
    (calculate_ats syn r j).2.2.1 ∩ (calculate_ats syn r j).2.2.2 = ∅ := by
  rw [calculate_ats_matched, calculate_ats_missing, matchedSet, missingSet]
  constructor
  · ext w
    simp only [Finset.mem_union, Finset.mem_filter]
    tauto
  · ext w
    simp only [Finset.mem_inter, Finset.mem_filter, Finset.not_mem_empty, iff_false]
    tauto

/-- C6: keyword extraction is idempotent with respect to normalization:
extracting from the cleaned text gives the same keyword set as extracting
from the raw text, because clean_text is idempotent. -/
theorem c6_idempotent (t : List ℕ) :
    extract_keywords (clean_text t) = extract_keywords t := by
  rw [extract_keywords, extract_keywords, clean_text_idem]

/-- C7: every extracted keyword is a nonempty string of lowercase ASCII
letters and digits (the regex a-z0-9, one or more) and is not a stopword;
the empty input yields the empty set. -/
theorem c7_keyword_invariant :
    (∀ t w, w ∈ extract_keywords t →
      w ≠ [] ∧ (∀ c ∈ w, isLowerAlnum c = true) ∧ w ∉ stopwords) ∧
    extract_keywords (str "") = ∅ :=
  ⟨fun t w hw => extract_keywords_sound t w hw, by decide⟩

/-- C7 witness: the token hello extracted from a concrete mixed-case
input satisfies the invariant. -/
theorem c7_witness :
    str "hello" ∈ extract_keywords (str "Hello, world!") ∧
    (str "hello" ≠ [] ∧ (∀ c ∈ str "hello", isLowerAlnum c = true) ∧
      str "hello" ∉ stopwords) :=
  ⟨by decide, c7_keyword_invariant.1 (str "Hello, world!") (str "hello") (by decide)⟩

/-- C10: calculate_ats depends on its two text arguments only through
their keyword sets: texts with equal keyword sets (for instance texts
differing by duplication, reordering, case or punctuation) give identical
full results. -/
theorem c10_extensional (syn : List ℕ → Finset (List ℕ)) (r1 r2 j1 j2 : List ℕ)
    (hr : extract_keywords r1 = extract_keywords r2)
    (hj : extract_keywords j1 = extract_keywords j2) :
    calculate_ats syn r1 j1 = calculate_ats syn r2 j2 := by
  simp only [calculate_ats, hr, hj]

/-- C10 witness: duplicating and reordering the resume words leaves the
whole result unchanged on a concrete pair of distinct texts. -/
theorem c10_witness :
    extract_keywords (str "Python python SQL") = extract_keywords (str "sql PYTHON") ∧
    str "Python python SQL" ≠ str "sql PYTHON" ∧
    calculate_ats (fun _ => ∅) (str "Python python SQL") (str "Python SQL AWS")
      = calculate_ats (fun _ => ∅) (str "sql PYTHON") (str "Python SQL AWS") :=
  ⟨by decide, by decide,
    c10_extensional (fun _ => ∅) (str "Python python SQL") (str "sql PYTHON")
      (str "Python SQL AWS") (str "Python SQL AWS") (by decide) (by decide)⟩

/-- C4, counterexample: a file named resume.txt, whose extension is
neither pdf nor docx, makes the extractor return normally with the empty
string; no UnsupportedFormatError or any other exception is raised (the
dispatch falls through both branches and returns the initial empty
text). -/
theorem c4_counterexample :
    get_text_from_file (fun _ => Except.ok (str "parsed pdf"))
        (fun _ => Except.ok (str "parsed docx"))
        (some ⟨str "resume.txt", [37, 80, 68, 70]⟩) = Except.ok [] ∧
    get_text_from_file (fun _ => Except.ok (str "parsed pdf"))
        (fun _ => Except.ok (str "parsed docx"))
        (some ⟨str "resume.txt", [37, 80, 68, 70]⟩)
      ≠ Except.error PyError.unsupportedFormat := by
  refine ⟨rfl, ?_⟩
  intro h
  exact Except.noConfusion h

/-- C4 (amended): for any extension outside pdf and docx the extractor
does not fail: it returns the empty string.  Upload filtering to the two
supported formats happens only in the presentation layer. -/
theorem c4_amended (pdfT docxT : List ℕ → Except PyError (List ℕ)) (f : PyFile)
    (h1 : fileExt f.name ≠ str "pdf") (h2 : fileExt f.name ≠ str "docx") :
    get_text_from_file pdfT docxT (some f) = Except.ok [] := by
  simp only [get_text_from_file]
  rw [if_neg h1, if_neg h2]

/-- C4 witness: the amended statement evaluated on the txt file. -/
theorem c4_witness :
    fileExt (str "resume.txt") ≠ str "pdf" ∧
    fileExt (str "resume.txt") ≠ str "docx" ∧
    get_text_from_file (fun _ => Except.ok (str "x")) (fun _ => Except.ok (str "y"))
      (some ⟨str "resume.txt", []⟩) = Except.ok [] :=
  ⟨by decide, by decide,
    c4_amended (fun _ => Except.ok (str "x")) (fun _ => Except.ok (str "y"))
      ⟨str "resume.txt", []⟩ (by decide) (by decide)⟩

/-- C9: on every handled path of the extractor (pdf, docx, or the
fall-through for other extensions), the final file.seek(0) leaves the
stream position at 0 when the function returns, whatever position the
caller starts from and however much the backends consume. -/
theorem c9_stream_restored (pdfParse : List ℕ → List ℕ)
    (docxRun : List ℕ → ℕ → List ℕ × ℕ) (f : PyFile) (pos : ℕ) :
    (get_text_from_file_track pdfParse docxRun (some f) pos).2 = 0 := by
  simp only [get_text_from_file_track]
  split_ifs <;> rfl

theorem exWord_inj (i j : ℕ) (hi : i < 1000) (hj : j < 1000) (h : exWord i = exWord j) :
    i = j := by
  simp only [exWord, List.cons.injEq, and_true] at h
  obtain ⟨h1, h2, h3, h4⟩ := h
  omega

theorem synCacheAfter_succ (s : ℕ) :
    synCacheAfter (s + 1) = (get_synonyms wnEmpty (synCacheAfter s) (exWord s)).2 := by
  rw [synCacheAfter, synCacheAfter, List.range_succ, List.foldl_append, List.foldl_cons,
    List.foldl_nil]

theorem synCacheFind_none (s : ℕ) (hs : s < 1000) :
    ((List.range' 0 s).reverse.map exEntry).find? (fun q => q.1 = exWord s) = none := by
  rw [List.find?_eq_none]
  intro p hp
  simp only [List.mem_map, List.mem_reverse, List.mem_range'] at hp
  obtain ⟨x, ⟨i, hi, hxi⟩, hpe⟩ := hp
  subst hpe
  simp only [exEntry, decide_eq_true_eq]
  intro hc
  have hx := exWord_inj x s (by omega) (by omega) hc
  omega

theorem synCacheAfter_le (s : ℕ) (hs : s ≤ 500) :
    synCacheAfter s = (List.range' 0 s).reverse.map exEntry := by
  induction s with
  | zero => rfl
  | succ s ih =>
      have hs2 : s ≤ 500 := by omega
      rw [synCacheAfter_succ, ih hs2, get_synonyms, lruLookup,
        synCacheFind_none s (by omega)]
      have hlen : ((exWord s, wnEmpty (exWord s))
          :: (List.range' 0 s).reverse.map exEntry).length ≤ 500 := by
        simp
        omega
      show ((exWord s, wnEmpty (exWord s))
          :: (List.range' 0 s).reverse.map exEntry).take 500 = _
      rw [List.take_of_length_le hlen]
      rw [show List.range' 0 (s + 1) = List.range' 0 s ++ [s] by
        have := List.range'_1_concat 0 s
        simpa using this]
      simp [exEntry, wnEmpty]

theorem synCacheAfter_501 :
    synCacheAfter 501 = (List.range' 1 500).reverse.map exEntry := by
  rw [synCacheAfter_succ, synCacheAfter_le 500 le_rfl, get_synonyms, lruLookup,
    synCacheFind_none 500 (by omega)]
  show ((exWord 500, wnEmpty (exWord 500))
      :: (List.range' 0 500).reverse.map exEntry).take 500 = _
  have h0 : List.range' 0 500 = 0 :: List.range' 1 499 := by
    have := List.range'_succ 0 499 1
    simpa using this
  have h1 : List.range' 1 500 = List.range' 1 499 ++ [500] := by
    have := List.range'_1_concat 1 499
    simpa using this
  rw [h0, h1]
  simp only [List.reverse_cons, List.reverse_append, List.reverse_singleton, List.map_append,
    List.map_cons, List.map_nil, List.take_succ_cons, List.singleton_append, List.cons_append]
  have hlen : ((List.range' 1 499).reverse.map exEntry).length = 499 := by simp
  rw [List.take_left' hlen]
  simp [exEntry, wnEmpty]

/-- C5, counterexample: after 501 lookups of distinct words the cache
of get_synonyms holds only 500 entries, the entry of the first word has
been evicted, and a repeated call for that word queries the lexical
database again: its result now depends on the underlying database
function, so it is not served from the cache.  The lru_cache of the
source has maxsize 500, not an unbounded monotone cache. -/
theorem c5_counterexample :
    (synCacheAfter 501).length = 500 ∧
    (get_synonyms wnEmpty (synCacheAfter 501) (exWord 0)).1 = wnEmpty (exWord 0) ∧
    (get_synonyms wnSelf (synCacheAfter 501) (exWord 0)).1 = wnSelf (exWord 0) ∧
    wnSelf (exWord 0) ≠ wnEmpty (exWord 0) := by
  have hfind : (synCacheAfter 501).find? (fun q => q.1 = exWord 0) = none := by
    rw [synCacheAfter_501, List.find?_eq_none]
    intro p hp
    simp only [List.mem_map, List.mem_reverse, List.mem_range'] at hp
    obtain ⟨x, ⟨i, hi, hxi⟩, hpe⟩ := hp
    subst hpe
    simp only [exEntry, decide_eq_true_eq]
    intro hc
    have hx := exWord_inj x 0 (by omega) (by omega) hc
    omega
  refine ⟨?_, ?_, ?_, ?_⟩
  · rw [synCacheAfter_501]
    simp
  · exact lruLookup_miss wnEmpty 500 (synCacheAfter 501) (exWord 0) hfind
  · exact lruLookup_miss wnSelf 500 (synCacheAfter 501) (exWord 0) hfind
  · rw [wnSelf, wnEmpty]
    simp

/-- C5 (amended): get_synonyms is memoized through an LRU cache of
capacity 500 (the maxsize given to lru_cache in the source).  While a
word is cached, a repeated call returns the cached value and does not
consult the lexical database (the result is identical for any two
underlying database functions); the cache never grows beyond 500 entries,
evicting the least recently used entry instead of growing monotonically. -/
theorem c5_amended (wn wn2 : List ℕ → Finset (List ℕ))
    (cache : List (List ℕ × Finset (List ℕ))) (word : List ℕ)
    (p : List ℕ × Finset (List ℕ))
    (hlen : cache.length ≤ 500)
    (hfind : cache.find? (fun q => q.1 = word) = some p) :
    (get_synonyms wn cache word).1 = p.2 ∧
    get_synonyms wn cache word = get_synonyms wn2 cache word ∧
    (get_synonyms wn cache word).2.length ≤ 500 := by
  obtain ⟨h1, h2⟩ := lruLookup_hit wn wn2 500 cache word p hfind
  exact ⟨h1, h2, lruLookup_length wn 500 cache word hlen⟩

/-- C5 witness: a one-entry cache holding the word game; the lookup
returns the cached synonym set, for any database function. -/
theorem c5_witness :
    ([(str "game", ({str "gaming"} : Finset (List ℕ)))] : List _).length ≤ 500 ∧
    ([(str "game", ({str "gaming"} : Finset (List ℕ)))].find? (fun q => q.1 = str "game")
      = some (str "game", {str "gaming"})) ∧
    (get_synonyms wnEmpty [(str "game", {str "gaming"})] (str "game")).1 = {str "gaming"} :=
  ⟨by decide, by decide,
    (c5_amended wnEmpty wnSelf [(str "game", {str "gaming"})] (str "game")
      (str "game", {str "gaming"}) (by decide) (by decide)).1⟩

/-- C8: a lookup failure for one keyword on one page is absorbed inside
the per-keyword try block: the result of highlight_pdf_keywords is the
serialization of, for every page, the concatenation of the independent
per-keyword contributions, so a failing keyword loses at most its own
remaining rectangles and every other keyword and page contributes in
full; even when every search raises, the function still returns the
serialized document, with no annotations. -/
theorem c8_error_recovery {Page Rect : Type}
    (serialize : List (Page × List Rect) → List ℕ)
    (searchFor : Page → List ℕ → Except PyError (List Rect))
    (getWords : Page → Except PyError (List (Rect × List ℕ)))
    (pages : List Page) (keywords : List (List ℕ)) :
    highlight_pdf_keywords serialize searchFor getWords pages keywords
      = serialize (pages.map (fun p =>
          (p, (keywords.map (fun kw => (kwStep searchFor getWords p kw []).1)).flatten))) ∧
    ∀ e : PyError,
      highlight_pdf_keywords serialize (fun _ _ => Except.error e) getWords pages keywords
        = serialize (pages.map (fun p => (p, ([] : List Rect)))) := by
  constructor
  · rw [highlight_pdf_keywords]
    congr 1
    apply List.map_congr_left
    intro p _
    rw [Prod.mk.injEq]
    refine ⟨rfl, ?_⟩
    rw [foldl_kwStep]
    simp
  · intro e
    rw [highlight_pdf_keywords]
    congr 1
    apply List.map_congr_left
    intro p _
    rw [Prod.mk.injEq]
    refine ⟨rfl, ?_⟩
    have hconst : ∀ (l : List (List ℕ)) (acc : List Rect),
        l.foldl (fun a kw =>
          (kwStep (fun _ _ => (Except.error e : Except PyError (List Rect)))
            getWords p kw a).1) acc = acc := by
      intro l
      induction l with
      | nil => intro acc; rfl
      | cons k ks ih => intro acc; rw [List.foldl_cons]; exact ih acc
    exact hconst keywords []

